import Mathlib

/-!
Verification of the kiwi appliance-builder configuration layer
(`kiwi/bootloader_config_base.py` and `kiwi/volume_manager/base.py`)
via a shallow embedding in Lean.

Modelling conventions: Python strings are Lean `String` (a wrapped
`List Char`); `None`-able values are `Option`; Python exceptions are
`Except PyErr`; external collaborators (DiskSetup, SystemSize, the
mount machinery) are oracle parameters.
-/

namespace Kiwi

/-- Python whitespace characters as stripped by `str.strip()` (ASCII range). -/
def isPySpace (c : Char) : Bool :=
  c = ' ' || c = '\t' || c = '\n' || c = '\r' || c = '\x0b' || c = '\x0c'

/-- Data-level model of Python `str.strip()`: drop whitespace on both ends. -/
def stripData (l : List Char) : List Char :=
  ((l.dropWhile isPySpace).reverse.dropWhile isPySpace).reverse

/-- Python `s.strip()`. -/
def pyStrip (s : String) : String := String.mk (stripData s.data)

/-- Data-level model of the Python substring test `needle in haystack`. -/
def containsData (needle : List Char) : List Char → Bool
  | [] => needle.isPrefixOf []
  | c :: cs => needle.isPrefixOf (c :: cs) || containsData needle cs

/-- Python substring test `needle in s`. -/
def pyIn (needle s : String) : Bool := containsData needle.data s.data

/-- Python `s.startswith(p)`. -/
def pyStartswith (s p : String) : Bool := p.data.isPrefixOf s.data

/-- Data-level model of Python `s.split(sep)` for a one-character separator:
splits at every occurrence, keeping empty parts. -/
def splitData (sep : Char) : List Char → List (List Char)
  | [] => [[]]
  | c :: cs =>
    match splitData sep cs with
    | [] => [[]]
    | h :: t => if c = sep then [] :: h :: t else (c :: h) :: t

/-- Python `s.split(sep)` for a one-character separator. -/
def pySplit (sep : Char) (s : String) : List String :=
  (splitData sep s.data).map String.mk

/-- Truthiness of an optional Python string: `None` and the empty string are falsy. -/
def truthy : Option String → Bool
  | none => false
  | some s => s != ""

/-- The exceptions the embedded layer can raise. -/
inductive PyErr where
  | typeError
  | valueError
  | kiwiBootLoaderTargetError (msg : String)
  deriving DecidableEq

/-- A dynamically-typed Python return value: the sizing code returns either
an `int` (freespace accounting) or the raw `str` taken from the size spec. -/
inductive PyVal where
  | int (n : Int)
  | str (s : String)
  deriving DecidableEq

/-- One volume entry as delivered by `XMLState.get_volumes()`: the fields of
the `volume_type` tuple that `volume_manager/base.py` reads. -/
structure Volume where
  name : String
  realpath : String
  size : String
  fullsize : Bool
  attributes : List String
  deriving DecidableEq

/-- The slice of the appliance-descriptor state that
`BootLoaderConfigBase` reads: build-type fields and the volume list.
Absent XML attributes are `none`. -/
structure XState where
  filesystem : Option String
  firmware : Option String
  kernelcmdline : Option String
  boottimeout : Option Int
  volumes : List Volume
  deriving DecidableEq

/-- `BootLoaderConfigBase.get_boot_path`.  `need_boot_partition₀` is the
externally computed `DiskSetup.need_boot_partition()` answer, consulted
only for the disk target. -/
def get_boot_path (st : XState) (need_boot_partition₀ : Bool)
    (target : String) : Except PyErr String :=
  if target ≠ "disk" ∧ target ≠ "iso" then
    .error (.kiwiBootLoaderTargetError ("Invalid boot loader target " ++ target))
  else
    let bootpath := "/boot"
    let need_boot_partition := if target = "disk" then need_boot_partition₀ else false
    let bootpath := if target = "disk" ∧ need_boot_partition then "/" else bootpath
    let bootpath :=
      if target = "disk" ∧ ¬need_boot_partition ∧
          st.filesystem = some ("btrfs") ∧ st.volumes ≠ [] then
        "/@" ++ bootpath
      else bootpath
    .ok bootpath

/-- `BootLoaderConfigBase.get_boot_timeout_seconds`: the code guards the
configured value with Python truthiness (`if not timeout_seconds`), so both
an absent value and a configured `0` fall back to the default `10`. -/
def get_boot_timeout_seconds (st : XState) : Int :=
  match st.boottimeout with
  | none => 10
  | some t => if t = 0 then 10 else t

/-- `BootLoaderConfigBase.__get_root_cmdline_parameter`: evaluating
`'root=' in cmdline` on an absent (`None`) kernel command line raises a
`TypeError` in Python. -/
def get_root_cmdline_parameter (st : XState) : Except PyErr (Option String) :=
  match st.kernelcmdline with
  | none => .error .typeError
  | some cmdline =>
    if pyIn ("root=") cmdline then .ok none
    else if st.firmware = some ("ec2") then .ok (some ("root=/dev/sda1"))
    else if st.firmware = some ("ec2hvm") then .ok (some ("root=/dev/hda1"))
    else .ok none

/-- `BootLoaderConfigBase.get_boot_cmdline`. -/
def get_boot_cmdline (st : XState) : Except PyErr String := do
  let cmdline₀ := ""
  let cmdline₁ :=
    match st.kernelcmdline with
    | some c => if c != "" then cmdline₀ ++ " " ++ c else cmdline₀
    | none => cmdline₀
  let custom_root ← get_root_cmdline_parameter st
  let cmdline₂ :=
    match custom_root with
    | some r => if r != "" then cmdline₁ ++ " " ++ r else cmdline₁
    | none => cmdline₁
  pure (pyStrip cmdline₂)

/-- C2: `get_boot_path("iso")` is always `/boot`; for the disk target the
result is `/` when a dedicated boot partition is needed, `/@/boot` when no
boot partition is needed, the filesystem is btrfs and at least one volume
is configured, and `/boot` otherwise; any other target fails with the
boot-loader-target configuration error. -/
theorem get_boot_path_spec (st : XState) (nbp : Bool) :
    get_boot_path st nbp "iso" = .ok ("/boot") ∧
    (nbp = true → get_boot_path st nbp "disk" = .ok ("/")) ∧
    (nbp = false → st.filesystem = some ("btrfs") → st.volumes ≠ [] →
      get_boot_path st nbp "disk" = .ok ("/@/boot")) ∧
    (nbp = false → (st.filesystem ≠ some ("btrfs") ∨ st.volumes = []) →
      get_boot_path st nbp "disk" = .ok ("/boot")) ∧
    (∀ target, target ≠ "disk" → target ≠ "iso" →
      get_boot_path st nbp target =
        .error (.kiwiBootLoaderTargetError ("Invalid boot loader target " ++ target))) := by
  refine ⟨?_, ?_, ?_, ?_, ?_⟩
  · simp [get_boot_path]
  · intro h; subst h; simp [get_boot_path]
  · intro h hfs hv; subst h; simp [get_boot_path, hfs, hv]
  · intro h hcase; subst h
    rcases hcase with hfs | hv
    · simp [get_boot_path, hfs]
    · simp [get_boot_path, hv]
  · intro target h1 h2
    unfold get_boot_path
    rw [if_pos ⟨h1, h2⟩]

/-- Witness for C2: the unsupported target `usb` fails with the
boot-loader-target configuration error. -/
theorem get_boot_path_spec_witness :
    get_boot_path ⟨some ("btrfs"), none, none, none, []⟩ false "usb" =
      .error (.kiwiBootLoaderTargetError ("Invalid boot loader target " ++ "usb")) :=
  (get_boot_path_spec ⟨some ("btrfs"), none, none, none, []⟩ false).2.2.2.2
    "usb" (by decide) (by decide)

/-- C10 counterexample: with the boot timeout explicitly configured to `0`,
`get_boot_timeout_seconds` returns `10`, not the configured value — the
Python truthiness guard `if not timeout_seconds` treats `0` as unset. -/
theorem get_boot_timeout_seconds_counterexample :
    get_boot_timeout_seconds ⟨none, none, none, some 0, []⟩ = 10 ∧
      (10 : Int) ≠ 0 := by
  exact ⟨rfl, by decide⟩

/-- C10 (amended): `get_boot_timeout_seconds` returns the configured value
whenever one is configured and nonzero; it returns the default `10` when no
value is set and also when the configured value is `0`. -/
theorem get_boot_timeout_seconds_spec (st : XState) :
    (∀ t, st.boottimeout = some t → t ≠ 0 → get_boot_timeout_seconds st = t) ∧
    (st.boottimeout = none → get_boot_timeout_seconds st = 10) ∧
    (st.boottimeout = some 0 → get_boot_timeout_seconds st = 10) := by
  refine ⟨?_, ?_, ?_⟩
  · intro t ht hne
    simp [get_boot_timeout_seconds, ht, hne]
  · intro h; simp [get_boot_timeout_seconds, h]
  · intro h; simp [get_boot_timeout_seconds, h]

/-- Witness for C10 (amended): a configured timeout of `42` is returned. -/
theorem get_boot_timeout_seconds_spec_witness :
    get_boot_timeout_seconds ⟨none, none, none, some 42, []⟩ = 42 :=
  (get_boot_timeout_seconds_spec ⟨none, none, none, some 42, []⟩).1
    42 rfl (by decide)

/-- `containsData` decides the contiguous-substring (infix) relation. -/
theorem containsData_iff (n : List Char) (l : List Char) :
    containsData n l = true ↔ n <:+: l := by
  induction l with
  | nil => simp [containsData]
  | cons c cs ih =>
    simp [containsData, ih, List.infix_cons_iff]

/-- Stripping is unaffected by a prepended space. -/
theorem stripData_space_cons (l : List Char) :
    stripData (' ' :: l) = stripData l := by
  unfold stripData
  rw [List.dropWhile_cons, if_pos (by decide)]

/-- Right-stripping does nothing to a list ending in a non-space character. -/
theorem dropWhile_rev_getLast (l : List Char) (d : Char)
    (hd : isPySpace d = false) (h : l.getLast? = some d) :
    (l.reverse.dropWhile isPySpace).reverse = l := by
  have hh : l.reverse.head? = some d := by rw [List.head?_reverse, h]
  match hrev : l.reverse with
  | [] => rw [hrev] at hh; exact absurd hh (by simp)
  | a :: t =>
    rw [hrev] at hh
    have ha : a = d := by injection hh
    subst ha
    rw [List.dropWhile_cons, hd]
    simp only [Bool.false_eq_true, if_false]
    rw [← hrev, List.reverse_reverse]

/-- Stripping a list that ends in a block starting and ending with
non-space characters only left-strips the front part. -/
theorem stripData_append (x r₂ : List Char) (c d : Char) (r₁ : List Char)
    (hr : c :: r₁ = r₂ ++ [d])
    (hc : isPySpace c = false) (hd : isPySpace d = false) :
    stripData (x ++ c :: r₁) = x.dropWhile isPySpace ++ c :: r₁ := by
  have hlast : ∀ (w : List Char), (w ++ c :: r₁).getLast? = some d := by
    intro w
    rw [hr, ← List.append_assoc]
    exact List.getLast?_concat _
  unfold stripData
  rw [List.dropWhile_append]
  by_cases he : (x.dropWhile isPySpace).isEmpty
  · rw [if_pos he]
    rw [List.isEmpty_iff] at he
    rw [List.dropWhile_cons, hc]
    simp only [Bool.false_eq_true, if_false]
    rw [he, List.nil_append]
    exact dropWhile_rev_getLast _ d hd (by simpa using hlast [])
  · rw [if_neg he]
    exact dropWhile_rev_getLast _ d hd (hlast _)

/-- A substring of the left-trimmed list is a substring of the list. -/
theorem containsData_dropWhile (n l : List Char)
    (h : containsData n (l.dropWhile isPySpace) = true) :
    containsData n l = true := by
  rw [containsData_iff] at h ⊢
  exact h.trans (List.dropWhile_suffix isPySpace).isInfix

/-- The result of appending a root assignment to a custom command line, as
`get_boot_cmdline` produces it: the left-trimmed command line, one space,
then the assignment — or the assignment alone when the trimmed command line
is empty. -/
def appendRoot (s root : String) : String :=
  if s.data.dropWhile isPySpace = [] then root
  else String.mk (s.data.dropWhile isPySpace ++ ' ' :: root.data)

/-- Core computation behind C3: the shape of `get_boot_cmdline`'s result
when a root assignment is appended to the configured command line. -/
theorem pyStrip_append_root (s root : String) (c d : Char) (r₁ r₂ : List Char)
    (hroot : root.data = c :: r₁) (hr : c :: r₁ = r₂ ++ [d])
    (hc : isPySpace c = false) (hd : isPySpace d = false) :
    pyStrip ((if s != "" then "" ++ " " ++ s else "") ++ " " ++ root) =
      appendRoot s root := by
  have hdata : ((if s != "" then "" ++ " " ++ s else "") ++ " " ++ root).data =
      ((if s != "" then ' ' :: s.data else []) ++ [' ']) ++ (c :: r₁) := by
    by_cases hs : s = ""
    · subst hs; simp [hroot]
    · rw [if_pos (by simpa using hs), if_pos (by simpa using hs)]
      simp [hroot]
  unfold pyStrip
  rw [hdata, stripData_append _ r₂ c d r₁ hr hc hd]
  rw [List.dropWhile_append]
  have hinner : List.dropWhile isPySpace (if s != "" then ' ' :: s.data else []) =
      s.data.dropWhile isPySpace := by
    by_cases hs : s = ""
    · subst hs; simp
    · rw [if_pos (by simpa using hs), List.dropWhile_cons, if_pos (by decide)]
  rw [hinner]
  unfold appendRoot
  by_cases hy : s.data.dropWhile isPySpace = []
  · rw [if_pos (by simp [hy]), if_pos hy]
    rw [List.dropWhile_cons, if_pos (by decide), List.dropWhile_nil, List.nil_append]
    exact (congrArg String.mk hroot).symm
  · rw [if_neg (by simp [hy]), if_neg hy]
    rw [List.append_assoc, List.singleton_append, hroot]

/-- Evaluation of `__get_root_cmdline_parameter` when the configured command
line already carries a root assignment. -/
theorem root_param_of_contains (fs fw : Option String) (bt : Option Int)
    (vols : List Volume) (s : String) (h : pyIn ("root=") s = true) :
    get_root_cmdline_parameter ⟨fs, fw, some s, bt, vols⟩ = .ok none := by
  simp only [get_root_cmdline_parameter]
  rw [if_pos h]

/-- Evaluation of `__get_root_cmdline_parameter` for firmware `ec2`. -/
theorem root_param_ec2 (fs fw : Option String) (bt : Option Int)
    (vols : List Volume) (s : String) (h : pyIn ("root=") s = false)
    (hfw : fw = some ("ec2")) :
    get_root_cmdline_parameter ⟨fs, fw, some s, bt, vols⟩ =
      .ok (some ("root=/dev/sda1")) := by
  simp only [get_root_cmdline_parameter]
  rw [if_neg (by simp [h]), if_pos hfw]

/-- Evaluation of `__get_root_cmdline_parameter` for firmware `ec2hvm`. -/
theorem root_param_ec2hvm (fs fw : Option String) (bt : Option Int)
    (vols : List Volume) (s : String) (h : pyIn ("root=") s = false)
    (hfw : fw = some ("ec2hvm")) :
    get_root_cmdline_parameter ⟨fs, fw, some s, bt, vols⟩ =
      .ok (some ("root=/dev/hda1")) := by
  simp only [get_root_cmdline_parameter]
  have hne : fw ≠ some ("ec2") := by
    rw [hfw]; intro hcon; injection hcon with hcon; exact absurd hcon (by decide)
  rw [if_neg (by simp [h]), if_neg hne, if_pos hfw]

/-- Evaluation of `__get_root_cmdline_parameter` for any other firmware. -/
theorem root_param_other (fs fw : Option String) (bt : Option Int)
    (vols : List Volume) (s : String) (h : pyIn ("root=") s = false)
    (h1 : fw ≠ some ("ec2")) (h2 : fw ≠ some ("ec2hvm")) :
    get_root_cmdline_parameter ⟨fs, fw, some s, bt, vols⟩ = .ok none := by
  simp only [get_root_cmdline_parameter]
  rw [if_neg (by simp [h]), if_neg h1, if_neg h2]

/-- C3: with a configured kernel command line, `get_boot_cmdline` returns it
unchanged (surrounding whitespace trimmed) whenever it already contains a
`root=` assignment; otherwise exactly one root assignment is appended —
`root=/dev/sda1` for firmware `ec2`, `root=/dev/hda1` for firmware
`ec2hvm`, and nothing for any other firmware. -/
theorem get_boot_cmdline_spec (fs fw : Option String) (bt : Option Int)
    (vols : List Volume) (s : String) :
    (pyIn ("root=") s = true →
      get_boot_cmdline ⟨fs, fw, some s, bt, vols⟩ = .ok (pyStrip s)) ∧
    (pyIn ("root=") s = false →
      (fw = some ("ec2") →
        get_boot_cmdline ⟨fs, fw, some s, bt, vols⟩ =
          .ok (appendRoot s ("root=/dev/sda1")) ∧
        pyIn ("root=") (String.mk (s.data.dropWhile isPySpace)) = false) ∧
      (fw = some ("ec2hvm") →
        get_boot_cmdline ⟨fs, fw, some s, bt, vols⟩ =
          .ok (appendRoot s ("root=/dev/hda1")) ∧
        pyIn ("root=") (String.mk (s.data.dropWhile isPySpace)) = false) ∧
      (fw ≠ some ("ec2") → fw ≠ some ("ec2hvm") →
        get_boot_cmdline ⟨fs, fw, some s, bt, vols⟩ = .ok (pyStrip s))) := by
  have hnotrim : pyIn ("root=") s = false →
      pyIn ("root=") (String.mk (s.data.dropWhile isPySpace)) = false := by
    intro h
    by_contra hcon
    rw [Bool.not_eq_false] at hcon
    have hin := containsData_dropWhile _ s.data hcon
    rw [pyIn] at h
    rw [h] at hin
    exact Bool.false_ne_true hin
  have hstrip_same : pyStrip ("" ++ " " ++ s) = pyStrip s := by
    unfold pyStrip
    have hd : ("" ++ " " ++ s).data = ' ' :: s.data := by simp
    rw [hd, stripData_space_cons]
  refine ⟨?_, ?_⟩
  · intro h
    have hs : s ≠ "" := by
      intro hs; subst hs; exact absurd h (by decide)
    unfold get_boot_cmdline
    rw [root_param_of_contains fs fw bt vols s h]
    show Except.ok (pyStrip (if (s != "") = true then "" ++ " " ++ s else "")) =
      Except.ok (pyStrip s)
    rw [if_pos (by simpa using hs), hstrip_same]
  · intro h
    refine ⟨?_, ?_, ?_⟩
    · intro hfw
      refine ⟨?_, hnotrim h⟩
      unfold get_boot_cmdline
      rw [root_param_ec2 fs fw bt vols s h hfw]
      show Except.ok (pyStrip ((if (s != "") = true then "" ++ " " ++ s else "")
          ++ " " ++ ("root=/dev/sda1"))) = _
      exact congrArg Except.ok
        (pyStrip_append_root s ("root=/dev/sda1") 'r' '1'
          ("oot=/dev/sda1").data ("root=/dev/sda").data rfl (by decide)
          (by decide) (by decide))
    · intro hfw
      refine ⟨?_, hnotrim h⟩
      unfold get_boot_cmdline
      rw [root_param_ec2hvm fs fw bt vols s h hfw]
      show Except.ok (pyStrip ((if (s != "") = true then "" ++ " " ++ s else "")
          ++ " " ++ ("root=/dev/hda1"))) = _
      exact congrArg Except.ok
        (pyStrip_append_root s ("root=/dev/hda1") 'r' '1'
          ("oot=/dev/hda1").data ("root=/dev/hda").data rfl (by decide)
          (by decide) (by decide))
    · intro h1 h2
      unfold get_boot_cmdline
      rw [root_param_other fs fw bt vols s h h1 h2]
      show Except.ok (pyStrip (if (s != "") = true then "" ++ " " ++ s else "")) =
        Except.ok (pyStrip s)
      by_cases hs : s = ""
      · subst hs
        rw [if_neg (by decide)]
      · rw [if_pos (by simpa using hs), hstrip_same]

/-- Witness for C3: firmware `ec2` with configured command line `quiet`
(no `root=` assignment) yields `quiet root=/dev/sda1`. -/
theorem get_boot_cmdline_spec_witness :
    get_boot_cmdline ⟨none, some ("ec2"), some ("quiet"), none, []⟩ =
      .ok (appendRoot ("quiet") ("root=/dev/sda1")) :=
  (((get_boot_cmdline_spec none (some ("ec2")) none [] ("quiet")).2
    (by decide)).1 rfl).1

/-- C4 counterexample: with no kernel command line configured at all
(`kernelcmdline = None`), `get_boot_cmdline` does not return a string: the
substring test `'root=' in None` raises a `TypeError`. -/
theorem get_boot_cmdline_none_counterexample :
    get_boot_cmdline ⟨none, some ("bios"), none, none, []⟩ =
      .error .typeError := rfl

/-- C4 (amended): `get_boot_cmdline` returns a string for every descriptor
whose kernel command line is configured as a string (including the empty
string); when the field is absent the call fails with a `TypeError` raised
by the `root=` substring test on `None`. -/
theorem get_boot_cmdline_total (fs fw : Option String) (bt : Option Int)
    (vols : List Volume) (s : String) :
    (∃ out, get_boot_cmdline ⟨fs, fw, some s, bt, vols⟩ = .ok out) ∧
    get_boot_cmdline ⟨fs, fw, none, bt, vols⟩ = .error .typeError := by
  constructor
  · have hroot : ∃ r, get_root_cmdline_parameter ⟨fs, fw, some s, bt, vols⟩ =
        .ok r := by
      by_cases h1 : pyIn ("root=") s = true
      · exact ⟨none, root_param_of_contains fs fw bt vols s h1⟩
      · rw [Bool.not_eq_true] at h1
        by_cases h2 : fw = some ("ec2")
        · exact ⟨some ("root=/dev/sda1"), root_param_ec2 fs fw bt vols s h1 h2⟩
        · by_cases h3 : fw = some ("ec2hvm")
          · exact ⟨some ("root=/dev/hda1"), root_param_ec2hvm fs fw bt vols s h1 h3⟩
          · exact ⟨none, root_param_other fs fw bt vols s h1 h2 h3⟩
    obtain ⟨r, hr⟩ := hroot
    cases r with
    | none =>
      refine ⟨pyStrip (if s != "" then "" ++ " " ++ s else ""), ?_⟩
      unfold get_boot_cmdline
      rw [hr]
      rfl
    | some rr =>
      refine ⟨pyStrip (if rr != "" then
          (if s != "" then "" ++ " " ++ s else "") ++ " " ++ rr
        else (if s != "" then "" ++ " " ++ s else "")), ?_⟩
      unfold get_boot_cmdline
      rw [hr]
      rfl
  · rfl

/-- Python `posixpath.normpath`: collapse repeated separators and resolve
`.` and `..` components, preserving up to two leading slashes. -/
def normpath (path : String) : String :=
  if path = "" then "." else
  let cs := path.data
  let initialSlashes : Nat :=
    if List.isPrefixOf ['/'] cs then
      if List.isPrefixOf ['/', '/'] cs ∧ ¬ List.isPrefixOf ['/', '/', '/'] cs
      then 2 else 1
    else 0
  let comps := splitData '/' cs
  let newComps : List (List Char) := comps.foldl (fun acc comp =>
    if comp = [] ∨ comp = ['.'] then acc
    else if comp ≠ ['.', '.'] ∨ (initialSlashes = 0 ∧ acc = []) ∨
        (acc ≠ [] ∧ acc.getLast? = some (['.', '.'])) then acc ++ [comp]
    else if acc ≠ [] then acc.dropLast
    else acc) []
  let res := List.replicate initialSlashes '/' ++ List.intercalate (['/']) newComps
  if res = [] then "." else String.mk res

/-- One step of the exclude-path loop in
`VolumeManagerBase.get_volume_mbsize`: skip the volume whose realpath equals
the lookup path; when the lookup path is `/` exclude every other volume;
otherwise exclude a volume when its realpath starts with the lookup path
(Python `str.startswith`, a plain string-prefix test). -/
def exclude_step (root_dir lookup_path : String)
    (exclude_paths : List String) (volume : Volume) : List String :=
  if lookup_path = volume.realpath then exclude_paths
  else if lookup_path = "/" then
    exclude_paths ++ [normpath (root_dir ++ "/" ++ volume.realpath)]
  else if pyStartswith volume.realpath lookup_path then
    exclude_paths ++ [normpath (root_dir ++ "/" ++ volume.realpath)]
  else exclude_paths

/-- The exclude-path list computed by the freespace branch of
`VolumeManagerBase.get_volume_mbsize`. -/
def freespace_exclude_paths (root_dir lookup_path : String)
    (all_volumes : List Volume) : List String :=
  all_volumes.foldl (exclude_step root_dir lookup_path) []

/-- Path-hierarchy ancestor relation of the claim: `p` is a proper ancestor
of `q` when the `/`-separated components of `p` are a proper prefix of those
of `q` (so `/var` is an ancestor of `/var/log` but not of `/var2`). -/
def isAncestorPath (p q : String) : Bool :=
  List.isPrefixOf (splitData '/' p.data) (splitData '/' q.data) &&
    splitData '/' p.data != splitData '/' q.data

/-- Python `int(...)` applied to the value field of a size spec: surrounding
whitespace is tolerated, sign and digits are parsed, anything else raises
`ValueError`. -/
def pyInt (s : String) : Except PyErr Int :=
  match (pyStrip s).toInt? with
  | some n => .ok n
  | none => .error .valueError

/-- `VolumeManagerBase.get_volume_mbsize`.  External collaborators are oracle
parameters: `accumulate` models `SystemSize.accumulate_mbyte_file_sizes`,
`customize` models `SystemSize.customize` (measured size adjusted by the
filesystem-specific overhead), and `min_volume_mbytes` models
`Defaults.get_min_volume_mbytes()` (the fixed per-volume minimum; `Defaults`
is not part of the embedded sources).  The size spec is split on `:` before
the oem override, and the non-freespace branch returns the raw string. -/
def get_volume_mbsize (accumulate : String → List String → Int)
    (customize : Int → String → Int) (min_volume_mbytes : Int)
    (root_dir : String) (volume : Volume) (all_volumes : List Volume)
    (filesystem_name : String) (image_type : Option String) :
    Except PyErr PyVal :=
  match pySplit ':' volume.size with
  | [size_type₀, mbsize₀] =>
    let lookup_path := volume.realpath
    let oem := truthy image_type && (image_type == some ("oem"))
    let size_type := if oem then "freespace" else size_type₀
    if size_type = "freespace" then
      let exclude_paths := freespace_exclude_paths root_dir lookup_path all_volumes
      match (if oem then .ok 0 else pyInt mbsize₀ : Except PyErr Int) with
      | .error e => .error e
      | .ok extra =>
        .ok (.int (extra + min_volume_mbytes +
          customize (accumulate (normpath (root_dir ++ "/" ++ lookup_path))
            exclude_paths) filesystem_name))
    else .ok (.str mbsize₀)
  | _ => .error .valueError

/-- Membership in the exclude-path fold, for an arbitrary accumulator. -/
theorem exclude_paths_mem_aux (root_dir lookup_path : String)
    (vols : List Volume) : ∀ (acc : List String) (p : String),
    p ∈ vols.foldl (exclude_step root_dir lookup_path) acc ↔
      p ∈ acc ∨ ∃ v, v ∈ vols ∧ v.realpath ≠ lookup_path ∧
        (lookup_path = "/" ∨ pyStartswith v.realpath lookup_path = true) ∧
        p = normpath (root_dir ++ "/" ++ v.realpath) := by
  induction vols with
  | nil => intro acc p; simp
  | cons v vs ih =>
    intro acc p
    rw [List.foldl_cons, ih]
    have hstep : p ∈ exclude_step root_dir lookup_path acc v ↔
        p ∈ acc ∨ (v.realpath ≠ lookup_path ∧
          (lookup_path = "/" ∨ pyStartswith v.realpath lookup_path = true) ∧
          p = normpath (root_dir ++ "/" ++ v.realpath)) := by
      unfold exclude_step
      by_cases h1 : lookup_path = v.realpath
      · rw [if_pos h1]
        simp [h1]
      · rw [if_neg h1]
        have hne : v.realpath ≠ lookup_path := fun hcon => h1 hcon.symm
        by_cases h2 : lookup_path = "/"
        · rw [if_pos h2]
          have hne2 : v.realpath ≠ "/" := fun hcon => hne (hcon.trans h2.symm)
          simp [List.mem_append, hne2, h2]
        · rw [if_neg h2]
          by_cases h3 : pyStartswith v.realpath lookup_path = true
          · rw [if_pos h3]
            simp [List.mem_append, hne, h2, h3]
          · rw [if_neg h3]
            simp [hne, h2, h3]
    rw [hstep, List.exists_mem_cons_iff]
    exact or_assoc

set_option maxHeartbeats 2000000 in
/-- C1 counterexample: sizing `/var` by freespace with another volume at
`/var2` excludes the on-disk subtree of `/var2`, although `/var2` is not a
path-hierarchy descendant of `/var` — the code's `startswith` test is a
plain string-prefix test. -/
theorem freespace_exclude_sibling_counterexample :
    freespace_exclude_paths ("/root") ("/var")
      [⟨"LVvar", "/var", "freespace:10", false, []⟩,
       ⟨"LVvar2", "/var2", "freespace:10", false, []⟩] = ["/root/var2"] ∧
    isAncestorPath ("/var") ("/var2") = false := ⟨rfl, rfl⟩

/-- C1 (amended): for a freespace-sized volume, the paths excluded from the
usage measurement are exactly the normalized on-disk paths of the other
configured volumes whose realpath has this volume's realpath as a string
prefix (which covers every path-hierarchy descendant but also string-prefix
siblings such as `/var2` under `/var`), and, when this volume's realpath is
the root path `/`, of all other configured volumes. -/
theorem freespace_exclude_paths_spec (root_dir lookup_path : String)
    (vols : List Volume) (p : String) :
    p ∈ freespace_exclude_paths root_dir lookup_path vols ↔
      ∃ v, v ∈ vols ∧ v.realpath ≠ lookup_path ∧
        (lookup_path = "/" ∨ pyStartswith v.realpath lookup_path = true) ∧
        p = normpath (root_dir ++ "/" ++ v.realpath) := by
  have h := exclude_paths_mem_aux root_dir lookup_path vols [] p
  simpa [freespace_exclude_paths] using h

/-- C6: with image type `oem` the declared size spec is ignored entirely:
the result is the freespace accounting with zero extra — the fixed
per-volume minimum plus the overhead-adjusted measured usage of the
volume's subtree (with the computed exclude paths), independent of the
declared type and value. -/
theorem get_volume_mbsize_oem_spec (accumulate : String → List String → Int)
    (customize : Int → String → Int) (min_volume_mbytes : Int)
    (root_dir name rp sz : String) (fz : Bool) (attrs : List String)
    (vols : List Volume) (fs : String) (t v : String)
    (hsz : pySplit ':' sz = [t, v]) :
    get_volume_mbsize accumulate customize min_volume_mbytes root_dir
        ⟨name, rp, sz, fz, attrs⟩ vols fs (some ("oem")) =
      .ok (.int (min_volume_mbytes +
        customize (accumulate (normpath (root_dir ++ "/" ++ rp))
          (freespace_exclude_paths root_dir rp vols)) fs)) := by
  simp only [get_volume_mbsize]
  rw [hsz]
  show Except.ok (PyVal.int ((0 : Int) + min_volume_mbytes +
      customize (accumulate (normpath (root_dir ++ "/" ++ rp))
        (freespace_exclude_paths root_dir rp vols)) fs)) = _
  rw [Int.zero_add]

/-- Witness for C6: a volume declared `size:500` is sized by oem freespace
accounting (min 30 + measured 100 adjusted by +7), ignoring the 500. -/
theorem get_volume_mbsize_oem_spec_witness :
    get_volume_mbsize (fun _ _ => 100) (fun n _ => n + 7) 30 ("/root")
        ⟨"LVusr", "/usr", "size:500", false, []⟩ [] ("ext4") (some ("oem")) =
      .ok (.int 137) := by
  have h := get_volume_mbsize_oem_spec (fun _ _ => 100) (fun n _ => n + 7) 30
    ("/root") ("LVusr") ("/usr") ("size:500") false [] [] ("ext4")
    ("size") ("500") (by decide)
  exact h.trans rfl

/-- C9 at the failing input: for a non-freespace size spec (`size:500`) and
a non-oem image type, `get_volume_mbsize` returns the unconverted string
`"500"` taken from the spec, which is not the integer `500` the docstring
(`:rtype: int`) promises. -/
theorem get_volume_mbsize_returns_string :
    get_volume_mbsize (fun _ _ => 0) (fun n _ => n) 30 ("/root")
        ⟨"LVusr", "/usr", "size:500", false, []⟩
        [⟨"LVusr", "/usr", "size:500", false, []⟩] ("ext4") none =
      .ok (.str ("500")) ∧ PyVal.str ("500") ≠ PyVal.int 500 :=
  ⟨rfl, by decide⟩

/-- The external operations `VolumeManagerBase.sync_data` drives, in
invocation order. -/
inductive SyncOp where
  | mount_volumes
  | umount_volumes
  | data_sync (src dst : String) (options : List String)
      (exclude : Option (List String))
  deriving DecidableEq

/-- `VolumeManagerBase.sync_data` as the trace of external operations it
performs: `mountpoint` is the shared mount root (`None` when
`setup_mountpoint` was never called), `root_mounted` is the
`MountManager.is_mounted()` answer for it, and the copy options are the
fixed rsync flags from the source. -/
def sync_data (mountpoint : Option String) (root_dir : String)
    (root_mounted : Bool) (exclude : Option (List String)) : List SyncOp :=
  match mountpoint with
  | none => []
  | some mp =>
    if mp != "" then
      (if root_mounted then [] else [SyncOp.mount_volumes]) ++
      [SyncOp.data_sync root_dir mp
        ["-a", "-H", "-X", "-A", "--one-file-system"] exclude] ++
      [SyncOp.umount_volumes]
    else []

/-- Mounted-state semantics of a trace of sync operations. -/
def mountedAfter (m : Bool) : List SyncOp → Bool
  | [] => m
  | SyncOp.mount_volumes :: t => mountedAfter true t
  | SyncOp.umount_volumes :: t => mountedAfter false t
  | SyncOp.data_sync _ _ _ _ :: t => mountedAfter m t

/-- C7: whenever a shared mount root has been set up, `sync_data` leaves the
volumes unmounted on successful completion: starting from any mounted state
the trace ends unmounted, the copy operation is performed with the
configured options and exclude list, volumes are mounted exactly when they
were not already mounted, and exactly one unmount closes the call. -/
theorem sync_data_spec (mp root_dir : String) (m : Bool)
    (exclude : Option (List String)) (hmp : mp ≠ "") :
    mountedAfter m (sync_data (some mp) root_dir m exclude) = false ∧
    SyncOp.data_sync root_dir mp ["-a", "-H", "-X", "-A", "--one-file-system"]
        exclude ∈ sync_data (some mp) root_dir m exclude ∧
    (sync_data (some mp) root_dir m exclude).count SyncOp.mount_volumes =
      (if m then 0 else 1) ∧
    (sync_data (some mp) root_dir m exclude).count SyncOp.umount_volumes = 1 := by
  have hm : (mp != "") = true := by simpa using hmp
  simp only [sync_data]
  rw [if_pos hm]
  cases m
  · refine ⟨rfl, ?_, ?_, ?_⟩
    · exact List.mem_cons_of_mem _ (List.mem_cons_self _ _)
    · simp [List.count_cons, List.count_append]
    · simp [List.count_cons, List.count_append]
  · refine ⟨rfl, ?_, ?_, ?_⟩
    · exact List.mem_cons_self _ _
    · simp [List.count_cons, List.count_append]
    · simp [List.count_cons, List.count_append]

/-- Witness for C7: with a fresh mount root and initially unmounted volumes
the call mounts, copies with the exclude list, and ends unmounted. -/
theorem sync_data_spec_witness :
    mountedAfter false
      (sync_data (some ("/tmp/kv")) ("/root") false (some (["tmp/*"]))) =
      false :=
  (sync_data_spec ("/tmp/kv") ("/root") false (some (["tmp/*"]))
    (by decide)).1

/-- Association-list model of the Python dict `volume_paths`: inserting an
existing key overwrites it in place, a new key is appended (Python dicts
preserve insertion order). -/
def dictInsert (d : List (String × Volume)) (k : String) (v : Volume) :
    List (String × Volume) :=
  match d with
  | [] => [(k, v)]
  | (k₀, v₀) :: rest =>
    if k₀ = k then (k, v) :: rest else (k₀, v₀) :: dictInsert rest k v

/-- Association-list lookup, Python `volume_paths[realpath]`. -/
def lookupA (d : List (String × Volume)) (k : String) : Option Volume :=
  match d with
  | [] => none
  | (k₀, v₀) :: rest => if k₀ = k then some v₀ else lookupA rest k

/-- Lexicographic comparison on character lists (code-point order), the key
order of Python `sorted` on strings. -/
def listLexLe : List Char → List Char → Bool
  | [], _ => true
  | _ :: _, [] => false
  | a :: as, b :: bs => if a < b then true else if a = b then listLexLe as bs else false

/-- Lexicographic order on strings. -/
def lexLe (a b : String) : Bool := listLexLe a.data b.data

/-- Python `sorted` on strings: a stable lexicographic sort. -/
def pySorted (l : List String) : List String := l.mergeSort lexLe

/-- Depth of a path: the number of its `/`-separated components, the model
of `len(path.split('/'))`. -/
def pathDepth (p : String) : Nat := (splitData '/' p.data).length

/-- Modelled from the spec: `Path.sort_by_hierarchy` is not part of the
embedded sources.  The spec describes it as the stabilization of the
lexicographically sorted candidate paths by a hierarchy rule guaranteeing
that every ancestor path precedes its descendants, with the tie-break for
equal-depth siblings left open.  We model it as the stable sort of the
input by path depth (component count): an ancestor has strictly fewer
components than any of its descendants, and equal-depth paths keep their
input order. -/
def sort_by_hierarchy (paths : List String) : List String :=
  paths.mergeSort (fun a b => decide (pathDepth a ≤ pathDepth b))

/-- The result pair of `get_canonical_volume_list`, the
`canonical_volume_type` namedtuple. -/
structure CanonicalVolumeList where
  volumes : List Volume
  full_size_volume : Option Volume
  deriving DecidableEq

/-- One iteration of the partitioning loop of
`get_canonical_volume_list`: a fullsize volume overwrites the fullsize
slot, any other volume with a truthy realpath enters the dict. -/
def canonical_step (st : List (String × Volume) × Option Volume)
    (volume : Volume) : List (String × Volume) × Option Volume :=
  if volume.fullsize then (st.1, some volume)
  else if volume.realpath != "" then
    (dictInsert st.1 volume.realpath volume, st.2)
  else st

/-- `VolumeManagerBase.get_canonical_volume_list`. -/
def get_canonical_volume_list (vols : List Volume) : CanonicalVolumeList :=
  let st := vols.foldl canonical_step ([], none)
  let volume_paths := st.1
  let volume_list :=
    (sort_by_hierarchy (pySorted (volume_paths.map Prod.fst))).filterMap
      (fun realpath => lookupA volume_paths realpath)
  ⟨volume_list, st.2⟩

/-- The last element of a cons, written with `Option.or`. -/
theorem getLast?_cons_or {α : Type} (a : α) (l : List α) :
    (a :: l).getLast? = l.getLast?.or (some a) := by
  cases hl : l.getLast? with
  | none =>
    rw [List.getLast?_eq_none_iff] at hl
    subst hl
    rfl
  | some u =>
    obtain ⟨ys, rfl⟩ := List.getLast?_eq_some_iff.mp hl
    rw [Option.or_some, ← List.cons_append]
    exact List.getLast?_concat _

/-- The fullsize slot of the partitioning fold: the last fullsize volume of
the iteration wins, falling back to the initial slot value. -/
theorem canonical_fold_fullsize (vols : List Volume) :
    ∀ (d : List (String × Volume)) (f : Option Volume),
    (vols.foldl canonical_step (d, f)).2 =
      ((vols.filter (fun u => u.fullsize)).getLast?).or f := by
  induction vols with
  | nil => intro d f; simp
  | cons v vs ih =>
    intro d f
    rw [List.foldl_cons]
    by_cases hv : v.fullsize = true
    · have hcs : canonical_step (d, f) v = (d, some v) := by
        simp [canonical_step, hv]
      rw [hcs, ih d (some v)]
      have hfc : (v :: vs).filter (fun u => u.fullsize) =
          v :: vs.filter (fun u => u.fullsize) := by
        simp [List.filter_cons, hv]
      rw [hfc, getLast?_cons_or]
      cases (vs.filter (fun u => u.fullsize)).getLast? <;> simp
    · have hcs : ∃ d₁, canonical_step (d, f) v = (d₁, f) := by
        simp only [canonical_step]
        rw [if_neg (by simpa using hv)]
        by_cases hr : (v.realpath != "") = true
        · rw [if_pos hr]; exact ⟨_, rfl⟩
        · rw [if_neg hr]; exact ⟨d, rfl⟩
      obtain ⟨d₁, hd₁⟩ := hcs
      rw [hd₁, ih d₁ f]
      have hfc : (v :: vs).filter (fun u => u.fullsize) =
          vs.filter (fun u => u.fullsize) := by
        simp [List.filter_cons, hv]
      rw [hfc]

/-- Inserting a fresh key into the dict appends it. -/
theorem dictInsert_append (d : List (String × Volume)) (k : String)
    (v : Volume) (hk : k ∉ d.map Prod.fst) :
    dictInsert d k v = d ++ [(k, v)] := by
  induction d with
  | nil => rfl
  | cons p rest ih =>
    obtain ⟨k₀, v₀⟩ := p
    rw [List.map_cons, List.mem_cons] at hk
    push_neg at hk
    obtain ⟨h1, h2⟩ := hk
    simp only [dictInsert]
    rw [if_neg (fun hcon => h1 hcon.symm), ih h2, List.cons_append]

/-- Every entry of `dictInsert d k v` is an entry of `d` or the new pair. -/
theorem dictInsert_mem (d : List (String × Volume)) (k : String) (v : Volume)
    (q : String × Volume) (hq : q ∈ dictInsert d k v) :
    q ∈ d ∨ q = (k, v) := by
  induction d with
  | nil =>
    simp only [dictInsert] at hq
    rw [List.mem_singleton] at hq
    exact Or.inr hq
  | cons p rest ih =>
    obtain ⟨k₀, v₀⟩ := p
    simp only [dictInsert] at hq
    by_cases hk : k₀ = k
    · rw [if_pos hk] at hq
      rw [List.mem_cons] at hq
      rcases hq with h | h
      · exact Or.inr h
      · exact Or.inl (List.mem_cons_of_mem _ h)
    · rw [if_neg hk] at hq
      rw [List.mem_cons] at hq
      rcases hq with h | h
      · exact Or.inl (h ▸ List.mem_cons_self _ _)
      · rcases ih h with h₁ | h₁
        · exact Or.inl (List.mem_cons_of_mem _ h₁)
        · exact Or.inr h₁

/-- The dict built by the partitioning fold holds only non-fullsize
volumes. -/
theorem canonical_fold_dict_values (vols : List Volume) :
    ∀ (d : List (String × Volume)) (f : Option Volume),
    (∀ p ∈ d, (p.2).fullsize = false) →
    ∀ p ∈ (vols.foldl canonical_step (d, f)).1, (p.2).fullsize = false := by
  induction vols with
  | nil => intro d f hd p hp; exact hd p hp
  | cons v vs ih =>
    intro d f hd p hp
    rw [List.foldl_cons] at hp
    by_cases hv : v.fullsize = true
    · have hcs : canonical_step (d, f) v = (d, some v) := by
        simp [canonical_step, hv]
      rw [hcs] at hp
      exact ih d (some v) hd p hp
    · by_cases hr : (v.realpath != "") = true
      · have hcs : canonical_step (d, f) v = (dictInsert d v.realpath v, f) := by
          simp [canonical_step, hv, hr]
        rw [hcs] at hp
        refine ih _ f ?_ p hp
        intro q hq
        rcases dictInsert_mem d v.realpath v q hq with h | h
        · exact hd q h
        · rw [h]
          simpa using hv
      · have hcs : canonical_step (d, f) v = (d, f) := by
          simp [canonical_step, hv, hr]
        rw [hcs] at hp
        exact ih d f hd p hp

/-- The dict built by the partitioning fold, for pairwise-distinct
realpaths: the non-fullsize volumes with truthy realpath, keyed by
realpath, in iteration order after the initial dict. -/
theorem canonical_fold_dict (vols : List Volume) :
    ∀ (d : List (String × Volume)) (f : Option Volume),
    List.Pairwise (fun a b => a.realpath ≠ b.realpath) vols →
    (∀ v ∈ vols, v.realpath ∉ d.map Prod.fst) →
    (vols.foldl canonical_step (d, f)).1 =
      d ++ (vols.filter (fun u => !u.fullsize && u.realpath != "")).map
        (fun u => (u.realpath, u)) := by
  induction vols with
  | nil => intro d f _ _; simp
  | cons v vs ih =>
    intro d f hpw hdisj
    rw [List.foldl_cons]
    rw [List.pairwise_cons] at hpw
    obtain ⟨hvne, hpw'⟩ := hpw
    by_cases hv : v.fullsize = true
    · have hcs : canonical_step (d, f) v = (d, some v) := by
        simp [canonical_step, hv]
      rw [hcs, ih d (some v) hpw'
        (fun u hu => hdisj u (List.mem_cons_of_mem _ hu))]
      have hfc : (v :: vs).filter (fun u => !u.fullsize && u.realpath != "") =
          vs.filter (fun u => !u.fullsize && u.realpath != "") := by
        simp [List.filter_cons, hv]
      rw [hfc]
    · by_cases hr : (v.realpath != "") = true
      · have hcs : canonical_step (d, f) v = (dictInsert d v.realpath v, f) := by
          simp [canonical_step, hv, hr]
        rw [hcs]
        rw [dictInsert_append d v.realpath v (hdisj v (List.mem_cons_self _ _))]
        have hdisj' : ∀ u ∈ vs,
            u.realpath ∉ (d ++ [(v.realpath, v)]).map Prod.fst := by
          intro u hu
          rw [List.map_append, List.mem_append]
          rintro (h | h)
          · exact hdisj u (List.mem_cons_of_mem _ hu) h
          · rw [List.map_singleton, List.mem_singleton] at h
            exact hvne u hu h.symm
        rw [ih _ f hpw' hdisj']
        have hfc : (v :: vs).filter (fun u => !u.fullsize && u.realpath != "") =
            v :: vs.filter (fun u => !u.fullsize && u.realpath != "") := by
          simp [List.filter_cons, hv, hr]
        rw [hfc, List.map_cons, List.append_assoc, List.singleton_append]
      · have hcs : canonical_step (d, f) v = (d, f) := by
          simp [canonical_step, hv, hr]
        rw [hcs, ih d f hpw'
          (fun u hu => hdisj u (List.mem_cons_of_mem _ hu))]
        have hfc : (v :: vs).filter (fun u => !u.fullsize && u.realpath != "") =
            vs.filter (fun u => !u.fullsize && u.realpath != "") := by
          simp [List.filter_cons, hr]
        rw [hfc]

/-- A successful lookup returns an entry of the association list. -/
theorem lookupA_mem (d : List (String × Volume)) :
    ∀ (k : String) (u : Volume), lookupA d k = some u → (k, u) ∈ d := by
  induction d with
  | nil => intro k u h; exact absurd h (by simp [lookupA])
  | cons p rest ih =>
    intro k u h
    obtain ⟨k₀, v₀⟩ := p
    simp only [lookupA] at h
    by_cases hk : k₀ = k
    · rw [if_pos hk] at h
      injection h with h
      rw [← hk, ← h]
      exact List.mem_cons_self _ _
    · rw [if_neg hk] at h
      exact List.mem_cons_of_mem _ (ih k u h)

/-- A successful lookup in the realpath-keyed dict returns a volume of the
underlying list whose realpath is the key. -/
theorem lookupA_key_mem (filtered : List Volume) :
    ∀ (k : String) (v : Volume),
    lookupA (filtered.map (fun u => (u.realpath, u))) k = some v →
      v ∈ filtered ∧ v.realpath = k := by
  induction filtered with
  | nil => intro k v h; exact absurd h (by simp [lookupA])
  | cons u rest ih =>
    intro k v h
    rw [List.map_cons] at h
    simp only [lookupA] at h
    by_cases hk : u.realpath = k
    · rw [if_pos hk] at h
      injection h with h
      subst h
      exact ⟨List.mem_cons_self _ _, hk⟩
    · rw [if_neg hk] at h
      obtain ⟨hm, hrp⟩ := ih k v h
      exact ⟨List.mem_cons_of_mem _ hm, hrp⟩

/-- Lookup succeeds on every key of the realpath-keyed dict. -/
theorem lookupA_isSome (filtered : List Volume) :
    ∀ (k : String), k ∈ filtered.map (fun u => u.realpath) →
      ∃ v, lookupA (filtered.map (fun u => (u.realpath, u))) k = some v := by
  induction filtered with
  | nil => intro k h; exact absurd h (by simp)
  | cons u rest ih =>
    intro k h
    rw [List.map_cons, List.mem_cons] at h
    rw [List.map_cons]
    simp only [lookupA]
    by_cases hk : u.realpath = k
    · exact ⟨u, by rw [if_pos hk]⟩
    · rcases h with h | h
      · exact absurd h.symm hk
      · obtain ⟨v, hv⟩ := ih k h
        exact ⟨v, by rw [if_neg hk]; exact hv⟩

/-- A lookup list headed by a key foreign to `ks` can drop its head. -/
theorem filterMap_lookup_cons_ne (k₀ : String) (v₀ : Volume)
    (d : List (String × Volume)) :
    ∀ (ks : List String), (∀ k ∈ ks, k ≠ k₀) →
    ks.filterMap (lookupA ((k₀, v₀) :: d)) = ks.filterMap (lookupA d) := by
  intro ks
  induction ks with
  | nil => intro _; rfl
  | cons k rest ih =>
    intro h
    have hlook : lookupA ((k₀, v₀) :: d) k = lookupA d k := by
      simp only [lookupA]
      rw [if_neg (fun hcon => (h k (List.mem_cons_self _ _)) hcon.symm)]
    rw [List.filterMap_cons, List.filterMap_cons, hlook,
      ih (fun k₂ hk₂ => h k₂ (List.mem_cons_of_mem _ hk₂))]

/-- Looking every key of the realpath-keyed dict back up, in key order,
returns the underlying volumes (distinct keys). -/
theorem filterMap_lookup_self (filtered : List Volume)
    (hnd : (filtered.map (fun u => u.realpath)).Nodup) :
    (filtered.map (fun u => u.realpath)).filterMap
      (lookupA (filtered.map (fun u => (u.realpath, u)))) = filtered := by
  induction filtered with
  | nil => rfl
  | cons u rest ih =>
    rw [List.map_cons, List.nodup_cons] at hnd
    obtain ⟨hnm, hnd'⟩ := hnd
    rw [List.map_cons, List.map_cons, List.filterMap_cons]
    have h1 : lookupA ((u.realpath, u) :: rest.map (fun w => (w.realpath, w)))
        u.realpath = some u := by
      simp [lookupA]
    rw [h1]
    rw [filterMap_lookup_cons_ne u.realpath u _ _
      (fun k hk hcon => hnm (hcon ▸ hk))]
    rw [ih hnd']

/-- The realpaths of the looked-up volumes are the key list itself, whenever
every key is a key of the dict. -/
theorem filterMap_lookup_map (filtered : List Volume) :
    ∀ (ks : List String), (∀ k ∈ ks, k ∈ filtered.map (fun u => u.realpath)) →
    (ks.filterMap (lookupA (filtered.map (fun u => (u.realpath, u))))).map
      (fun u => u.realpath) = ks := by
  intro ks
  induction ks with
  | nil => intro _; rfl
  | cons k rest ih =>
    intro h
    rw [List.filterMap_cons]
    obtain ⟨v, hv⟩ := lookupA_isSome filtered k (h k (List.mem_cons_self _ _))
    rw [hv, List.map_cons]
    obtain ⟨-, hrp⟩ := lookupA_key_mem filtered k v hv
    rw [hrp, ih (fun k₂ h₂ => h k₂ (List.mem_cons_of_mem _ h₂))]

/-- The hierarchy sort orders its output by non-decreasing path depth. -/
theorem sort_by_hierarchy_pairwise (l : List String) :
    (sort_by_hierarchy l).Pairwise (fun a b => pathDepth a ≤ pathDepth b) := by
  have htrans : ∀ (a b c : String),
      (fun a b => decide (pathDepth a ≤ pathDepth b)) a b →
      (fun a b => decide (pathDepth a ≤ pathDepth b)) b c →
      (fun a b => decide (pathDepth a ≤ pathDepth b)) a c := by
    intro a b c hab hbc
    simp only [decide_eq_true_eq] at hab hbc ⊢
    omega
  have htot : ∀ (a b : String),
      ((fun a b => decide (pathDepth a ≤ pathDepth b)) a b ||
       (fun a b => decide (pathDepth a ≤ pathDepth b)) b a) = true := by
    intro a b
    rw [Bool.or_eq_true]
    simp only [decide_eq_true_eq]
    omega
  have h := List.sorted_mergeSort htrans htot l
  exact h.imp (by intro a b hab; simpa using hab)

/-- A proper path-hierarchy ancestor has strictly fewer components. -/
theorem pathDepth_lt_of_ancestor (p q : String)
    (h : isAncestorPath p q = true) : pathDepth p < pathDepth q := by
  unfold isAncestorPath at h
  rw [Bool.and_eq_true] at h
  obtain ⟨h1, h2⟩ := h
  rw [List.isPrefixOf_iff_prefix] at h1
  have hlen := h1.length_le
  have hne : splitData '/' p.data ≠ splitData '/' q.data := by simpa using h2
  rcases Nat.lt_or_ge (pathDepth p) (pathDepth q) with hlt | hge
  · exact hlt
  · exact absurd (h1.eq_of_length (Nat.le_antisymm hlen hge)) hne

/-- No member of the canonical ordered volume list is fullsize. -/
theorem canonical_volumes_not_fullsize (vols : List Volume) :
    ∀ u ∈ (get_canonical_volume_list vols).volumes, u.fullsize = false := by
  intro u hu
  simp only [get_canonical_volume_list] at hu
  rw [List.mem_filterMap] at hu
  obtain ⟨k, hk, hlook⟩ := hu
  have hmem := lookupA_mem _ k u hlook
  have h := canonical_fold_dict_values vols [] none
    (by intro p hp; exact absurd hp (List.not_mem_nil p)) (k, u) hmem
  simpa using h

/-- C5: under the data-model invariants (unique, nonempty realpaths, at
most one fullsize volume), `get_canonical_volume_list` partitions the
volumes into the ordered non-fullsize volumes and the separately returned
optional fullsize volume, never placed in the ordered list; the ordered
list's realpaths are the lexicographically sorted candidate paths
stabilized by the hierarchy sort, so every ancestor path precedes all of
its descendants. -/
theorem get_canonical_volume_list_spec (vols : List Volume)
    (hnd : (vols.map (fun u => u.realpath)).Nodup)
    (hne : ∀ u ∈ vols, u.realpath ≠ "")
    (hone : (vols.filter (fun u => u.fullsize)).length ≤ 1) :
    (get_canonical_volume_list vols).volumes.Perm
      (vols.filter (fun u => !u.fullsize)) ∧
    (∀ u ∈ (get_canonical_volume_list vols).volumes, u.fullsize = false) ∧
    (∀ u ∈ vols, u.fullsize = true →
      (get_canonical_volume_list vols).full_size_volume = some u) ∧
    ((get_canonical_volume_list vols).volumes.map (fun u => u.realpath) =
      sort_by_hierarchy (pySorted
        ((vols.filter (fun u => !u.fullsize)).map (fun u => u.realpath)))) ∧
    ((get_canonical_volume_list vols).volumes.map
      (fun u => u.realpath)).Pairwise
        (fun a b => isAncestorPath b a = false) := by
  have hfc : vols.filter (fun u => !u.fullsize && u.realpath != "") =
      vols.filter (fun u => !u.fullsize) := by
    apply List.filter_congr
    intro u hu
    have h := hne u hu
    simp [h]
  have hpw : List.Pairwise (fun a b => a.realpath ≠ b.realpath) vols := by
    unfold List.Nodup at hnd
    rw [List.pairwise_map] at hnd
    exact hnd
  have hdictF : (vols.foldl canonical_step ([], none)).1 =
      (vols.filter (fun u => !u.fullsize)).map (fun u => (u.realpath, u)) := by
    have h := canonical_fold_dict vols [] none hpw (by intro u hu; simp)
    rw [List.nil_append] at h
    rw [h, hfc]
  have hndF : ((vols.filter (fun u => !u.fullsize)).map
      (fun u => u.realpath)).Nodup :=
    List.Nodup.sublist ((List.filter_sublist vols).map _) hnd
  have hvols_eq : (get_canonical_volume_list vols).volumes =
      (sort_by_hierarchy (pySorted ((vols.filter (fun u => !u.fullsize)).map
        (fun u => u.realpath)))).filterMap
        (lookupA ((vols.filter (fun u => !u.fullsize)).map
          (fun u => (u.realpath, u)))) := by
    simp only [get_canonical_volume_list]
    rw [hdictF, List.map_map]
    rfl
  have hperm : (get_canonical_volume_list vols).volumes.Perm
      (vols.filter (fun u => !u.fullsize)) := by
    rw [hvols_eq]
    have hp : (sort_by_hierarchy (pySorted ((vols.filter
        (fun u => !u.fullsize)).map (fun u => u.realpath)))).Perm
        ((vols.filter (fun u => !u.fullsize)).map (fun u => u.realpath)) :=
      (List.mergeSort_perm _ _).trans (List.mergeSort_perm _ _)
    have h := hp.filterMap (lookupA ((vols.filter (fun u => !u.fullsize)).map
      (fun u => (u.realpath, u))))
    rw [filterMap_lookup_self _ hndF] at h
    exact h
  have hmap : (get_canonical_volume_list vols).volumes.map
      (fun u => u.realpath) =
      sort_by_hierarchy (pySorted ((vols.filter (fun u => !u.fullsize)).map
        (fun u => u.realpath))) := by
    rw [hvols_eq]
    apply filterMap_lookup_map
    intro k hk
    simpa [sort_by_hierarchy, pySorted] using hk
  refine ⟨hperm, canonical_volumes_not_fullsize vols, ?_, hmap, ?_⟩
  · intro u hu huf
    have hres : (get_canonical_volume_list vols).full_size_volume =
        (vols.filter (fun w => w.fullsize)).getLast? := by
      simp only [get_canonical_volume_list]
      rw [canonical_fold_fullsize vols [] none, Option.or_none]
    have humem : u ∈ vols.filter (fun w => w.fullsize) :=
      List.mem_filter.mpr ⟨hu, huf⟩
    have hsingle : vols.filter (fun w => w.fullsize) = [u] := by
      rcases hl : vols.filter (fun w => w.fullsize) with _ | ⟨a, rest⟩
      · rw [hl] at humem
        exact absurd humem (List.not_mem_nil u)
      · rw [hl] at humem hone
        rcases rest with _ | ⟨b, rest₂⟩
        · rw [List.mem_singleton] at humem
          rw [humem]
          exact hl
        · exact absurd hone (by simp)
    rw [hres, hsingle]
    rfl
  · rw [hmap]
    have hs := sort_by_hierarchy_pairwise (pySorted ((vols.filter
      (fun u => !u.fullsize)).map (fun u => u.realpath)))
    refine hs.imp ?_
    intro a b hab
    by_contra hcon
    rw [Bool.not_eq_false] at hcon
    have h := pathDepth_lt_of_ancestor b a hcon
    omega

/-- Witness for C5: for volumes `/var`, `/var/log`, `/opt` plus a fullsize
volume at `/`, the fullsize result is the `/` volume. -/
theorem get_canonical_volume_list_spec_witness :
    (get_canonical_volume_list
      [⟨"LVvar", "/var", "freespace:20", false, []⟩,
       ⟨"LVlog", "/var/log", "freespace:30", false, []⟩,
       ⟨"LVopt", "/opt", "freespace:10", false, []⟩,
       ⟨"LVroot", "/", "freespace:0", true, []⟩]).full_size_volume =
      some ⟨"LVroot", "/", "freespace:0", true, []⟩ :=
  (get_canonical_volume_list_spec
    [⟨"LVvar", "/var", "freespace:20", false, []⟩,
     ⟨"LVlog", "/var/log", "freespace:30", false, []⟩,
     ⟨"LVopt", "/opt", "freespace:10", false, []⟩,
     ⟨"LVroot", "/", "freespace:0", true, []⟩]
    (by decide) (by decide) (by decide)).2.2.1
    ⟨"LVroot", "/", "freespace:0", true, []⟩ (by decide) rfl

/-- C8: with more than one fullsize-flagged volume, the last one in
iteration order becomes the fullsize result, and an earlier fullsize volume
appears nowhere in the result: it is neither the fullsize result nor a
member of the ordered volume list. -/
theorem get_canonical_multi_fullsize_spec (pre post : List Volume)
    (v : Volume) (hv : v.fullsize = true)
    (hpost : ∃ w, w ∈ post ∧ w.fullsize = true)
    (hnd : ((pre ++ v :: post).map (fun u => u.realpath)).Nodup) :
    (get_canonical_volume_list (pre ++ v :: post)).full_size_volume =
      ((pre ++ v :: post).filter (fun u => u.fullsize)).getLast? ∧
    (get_canonical_volume_list (pre ++ v :: post)).full_size_volume ≠
      some v ∧
    v ∉ (get_canonical_volume_list (pre ++ v :: post)).volumes := by
  have hres : (get_canonical_volume_list (pre ++ v :: post)).full_size_volume
      = ((pre ++ v :: post).filter (fun u => u.fullsize)).getLast? := by
    simp only [get_canonical_volume_list]
    rw [canonical_fold_fullsize _ [] none, Option.or_none]
  refine ⟨hres, ?_, ?_⟩
  · obtain ⟨w, hw, hwf⟩ := hpost
    have hfpost : post.filter (fun u => u.fullsize) ≠ [] := by
      intro hcon
      have h := List.mem_filter.mpr ⟨hw, hwf⟩
      rw [hcon] at h
      exact absurd h (List.not_mem_nil w)
    obtain ⟨u, hu⟩ : ∃ u, (post.filter (fun w => w.fullsize)).getLast? =
        some u := by
      rcases h : (post.filter (fun w => w.fullsize)).getLast? with _ | u
      · rw [List.getLast?_eq_none_iff] at h
        exact absurd h hfpost
      · exact ⟨u, h⟩
    have humem : u ∈ post :=
      (List.mem_filter.mp (List.mem_of_getLast?_eq_some hu)).1
    have hlast : ((pre ++ v :: post).filter (fun w => w.fullsize)).getLast? =
        some u := by
      rw [List.filter_append]
      have hfc : (v :: post).filter (fun w => w.fullsize) =
          v :: post.filter (fun w => w.fullsize) := by
        simp [List.filter_cons, hv]
      rw [hfc, List.getLast?_append, getLast?_cons_or, hu]
      rfl
    rw [hres, hlast]
    intro hcon
    injection hcon with hcon
    subst hcon
    have h1 : ((u :: post).map (fun w => w.realpath)).Nodup :=
      List.Nodup.sublist ((List.sublist_append_right pre (u :: post)).map _)
        hnd
    rw [List.map_cons, List.nodup_cons] at h1
    exact h1.1 (List.mem_map_of_mem _ humem)
  · intro hcon
    have h := canonical_volumes_not_fullsize (pre ++ v :: post) v hcon
    rw [hv] at h
    exact Bool.noConfusion h

/-- Witness for C8: with fullsize volumes at `/a` and `/b` (in that order)
plus a normal volume, the `/a` volume is not the fullsize result and is
absent from the ordered list. -/
theorem get_canonical_multi_fullsize_spec_witness :
    (get_canonical_volume_list
      [⟨"LVa", "/a", "size:10", true, []⟩,
       ⟨"LVb", "/b", "size:10", true, []⟩,
       ⟨"LVc", "/c", "size:10", false, []⟩]).full_size_volume ≠
      some ⟨"LVa", "/a", "size:10", true, []⟩ ∧
    ⟨"LVa", "/a", "size:10", true, []⟩ ∉
      (get_canonical_volume_list
        [⟨"LVa", "/a", "size:10", true, []⟩,
         ⟨"LVb", "/b", "size:10", true, []⟩,
         ⟨"LVc", "/c", "size:10", false, []⟩]).volumes :=
  have h := get_canonical_multi_fullsize_spec []
    [⟨"LVb", "/b", "size:10", true, []⟩, ⟨"LVc", "/c", "size:10", false, []⟩]
    ⟨"LVa", "/a", "size:10", true, []⟩ rfl
    ⟨⟨"LVb", "/b", "size:10", true, []⟩, List.mem_cons_self _ _, rfl⟩
    (by decide)
  ⟨h.2.1, h.2.2⟩

end Kiwi
